import Mathlib

/-!
# Verification of the namespace-construction utilities

Shallow embedding of the core data structures and operations of the
repository (cvshort chains, uvclone rendezvous, id-map writing,
readlink/makedirs file helpers, the overlayns spec parser and the
steamns join path), together with theorems settling the specification
claims about them.

Machine integers (size_t) are modelled as Nat with explicit reduction
modulo 2^64 where overflow matters.  Loops that the C++ source runs
without a bound are modelled with an explicit fuel argument; a fuel
value that provably suffices is used at every call site that the
source reaches, and non-termination of the source loop corresponds to
the fuel-indexed family being `none` for every fuel.
-/

set_option maxHeartbeats 1000000

/-! ## std::string_view / size_t primitives used by overlayns.cpp -/

/-- std::string_view::npos, i.e. (size_t)-1 = 2^64 - 1. -/
def npos : Nat := 18446744073709551615

/-- 2^64, the modulus of size_t arithmetic. -/
def wordMod : Nat := 18446744073709551616

/-- Helper for `cfind`: first index at or after `i` (the index of the head
of the remaining list) whose element equals `c`. -/
def findAux (c : Char) : List Char → Nat → Option Nat
  | [], _ => none
  | x :: xs, i => if x = c then some i else findAux c xs (i + 1)

/-- `s.find(c, start)` of std::string_view: smallest index `≥ start` holding
`c`, or `npos` when there is none. -/
def cfind (s : List Char) (c : Char) (start : Nat) : Nat :=
  match findAux c (s.drop start) start with
  | some n => n
  | none => npos

/-- The inner loop of `str_split` (overlayns.cpp lines 64-67): while the
separator occurrence at `next` is escaped by a single backslash, move to
the following occurrence; when the search runs off the end, break with
`next = npos`.  Each iteration strictly increases `next`, so fuel
`s.length + 1` always suffices; the fuel-exhausted branch returns `next`
unchanged and is never reached at that fuel. -/
def skipEsc (s : List Char) (c : Char) : Nat → Nat → Nat
  | 0, next => next
  | fuel + 1, next =>
    if 0 < next ∧ s[next - 1]? = some '\\' ∧ (next < 2 ∨ s[next - 2]? ≠ some '\\') then
      let n2 := cfind s c (next + 1)
      if n2 = npos then npos else skipEsc s c fuel n2
    else next

/-- The outer loop of `str_split` (overlayns.cpp lines 63-71), fuel-indexed.
State: `start` (a size_t, it wraps modulo 2^64 when the inner loop breaks
with `next = npos` and the source computes `start = next + 1`) and the
accumulated `parts`.  Returns `none` when the fuel runs out, i.e. the
source loop has not terminated within `fuel` iterations. -/
def strSplitLoop (s : List Char) (c : Char) : Nat → Nat → List (List Char) → Option (List (List Char))
  | 0, _, _ => none
  | fuel + 1, start, parts =>
    let next := cfind s c start
    if next = npos then
      some (parts ++ [s.drop start])
    else
      let next2 := skipEsc s c (s.length + 1) next
      strSplitLoop s c fuel ((next2 + 1) % wordMod) (parts ++ [(s.drop start).take (next2 - start)])

/-- `str_split(s, c)` of overlayns.cpp.  For a terminating run each loop
iteration strictly increases `start`, so `s.length + 2` iterations always
suffice; `none` therefore means the source loop diverges. -/
def strSplit (s : List Char) (c : Char) : Option (List (List Char)) :=
  strSplitLoop s c (s.length + 2) 0 []

/-! ## mount_spec::parse (overlayns.cpp lines 165-190) -/

/-- MS_BIND. -/
def msBIND : Nat := 4096
/-- MS_REC. -/
def msREC : Nat := 16384

/-- The fields of `struct mount_spec` needed by the parse and execute
claims (mkdir policy and the full flag table are not involved). -/
structure MountSpecM where
  type : List Char
  device : List Char
  mountpoint : List Char
  flags : Nat
  args : List (List Char)
deriving DecidableEq

/-- Outcome of `mount_spec::parse`.  `looped` models the case where
`str_split` does not terminate; `oob` models the out-of-bounds vector
accesses `parts[1]` / `parts[2]` (undefined behaviour in the source);
`incomplete` is the branch printing "Incomplete mount spec". -/
inductive MountParse where
  | looped
  | incomplete
  | oob
  | parsed (spec : MountSpecM) (opts : List (List Char))
deriving DecidableEq

/-- `mount_spec::parse(s)`.  Note the source guards the `parts[0..2]`
accesses with `s.size() < 3` — the length of the raw string — not with
`parts.size() < 3`. -/
def mountSpecParse (s : List Char) : MountParse :=
  match strSplit s ',' with
  | none => .looped
  | some parts =>
    if s.length < 3 then .incomplete
    else
      match parts[0]?, parts[1]?, parts[2]? with
      | some t, some d, some m =>
        let spec : MountSpecM := { type := t, device := d, mountpoint := m, flags := 0, args := [] }
        let spec :=
          if spec.type = "bind".toList then
            { spec with flags := spec.flags ||| msBIND, type := [] }
          else if spec.type = "rbind".toList then
            { spec with flags := spec.flags ||| (msBIND ||| msREC), type := [] }
          else spec
        .parsed spec (parts.drop 3)
      | _, _, _ => .oob

/-! ## parse_overlay_spec (overlayns.cpp lines 253-358) and
mount_spec::execute (lines 192-221) -/

/-- `str_join(ss, c)` (overlayns.cpp lines 75-90): first fragment, then
`c` and the fragment for every further one. -/
def strJoin : List (List Char) → Char → List Char
  | [], _ => []
  | x :: xs, c => xs.foldl (fun r s => r ++ c :: s) x

/-- The local aggregate `x` of `parse_overlay_spec` plus the local
`options` vector.  `options` receives every option that is not
overlay-specific (the `copy_if` at lines 272-289); the source never
reads it again. -/
structure OvAcc where
  lowerdir : List Char
  upperdir : List Char
  workdir : List Char
  tmp : Bool
  shadow : Bool
  copyFrom : List Char
  passthrough : List (List Char)
deriving DecidableEq

/-- The empty accumulator. -/
def ovAcc0 : OvAcc :=
  { lowerdir := [], upperdir := [], workdir := [], tmp := false, shadow := false
    copyFrom := [], passthrough := [] }

/-- One step of the option-classifying `copy_if` lambda. -/
def ovClassify (acc : OvAcc) (opt : List Char) : OvAcc :=
  if "lowerdir=".toList.isPrefixOf opt then { acc with lowerdir := opt }
  else if "upperdir=".toList.isPrefixOf opt then { acc with upperdir := opt }
  else if "workdir=".toList.isPrefixOf opt then { acc with workdir := opt }
  else if "copyfrom=".toList.isPrefixOf opt then { acc with copyFrom := opt.drop 9 }
  else if opt = "tmp".toList then { acc with tmp := true }
  else if opt = "shadow".toList then { acc with shadow := true }
  else { acc with passthrough := acc.passthrough ++ [opt] }

/-- A step appended to `config::recipe`. -/
inductive OvStep where
  | copy (source dest : List Char)
  | mount (spec : MountSpecM)
deriving DecidableEq

/-- Final part of `parse_overlay_spec` (lines 332-357): build the error
list, push the resolved lowerdir/upperdir/workdir options into
`mspec.args`, and emit the recipe steps.  Observe that `a.passthrough`
is not consulted, mirroring the source, where the `options` vector is
dead after being filled. -/
def ovFinish (mp : List Char) (a : OvAcc) : Except (List (List Char)) (List OvStep) :=
  let errs1 := if a.lowerdir = [] then ["Missing lowerdir option".toList] else []
  let args1 := if a.lowerdir = [] then [] else [a.lowerdir]
  let errs2 :=
    if (a.upperdir = []) ≠ (a.workdir = []) then
      ["Must specify upperdir and workdir both or neither".toList]
    else []
  let args2 :=
    if (a.upperdir = []) = (a.workdir = []) ∧ a.upperdir ≠ [] then [a.upperdir, a.workdir]
    else []
  if errs1 ++ errs2 ≠ [] then .error (errs1 ++ errs2)
  else
    .ok ((if a.copyFrom ≠ [] then [OvStep.copy a.copyFrom (a.upperdir.drop 9)] else []) ++
      [OvStep.mount
        { type := "overlay".toList, device := "overlay".toList, mountpoint := mp
          flags := 0, args := args1 ++ args2 }])

/-- `parse_overlay_spec(s, cfg)`.  `tmpdir` is the result of `mkdtemp`
(`none` = failure), only consulted when the `tmp` option is present.
The outer `none` models a diverging `str_split`. -/
def parseOverlaySpec (tmpdir : Option (List Char)) (s : List Char) :
    Option (Except (List (List Char)) (List OvStep)) :=
  match strSplit s ',' with
  | none => none
  | some parts =>
    match parts with
    | [] => some (.error ["Incomplete overlay spec".toList])
    | mp :: opts =>
      let acc := opts.foldl ovClassify ovAcc0
      let acc :=
        if acc.shadow then
          { acc with lowerdir :=
              "lowerdir=".toList ++ mp ++
                (if acc.lowerdir = [] then [] else ':' :: acc.lowerdir.drop 9) }
        else acc
      if acc.tmp then
        match tmpdir with
        | none => some (.error ["Could not create temporary directory for tmp overlay option".toList])
        | some td =>
          some (ovFinish mp
            { acc with upperdir := "upperdir=".toList ++ td ++ "/upper".toList
                       workdir := "workdir=".toList ++ td ++ "/work".toList })
      else some (ovFinish mp acc)

/-- The option-data string `mount_spec::execute` passes to mount(2):
`str_join(args, ',')` (line 210). -/
def executeData (m : MountSpecM) : List Char := strJoin m.args ','

/-! ## fd::readlink (kofd.hpp lines 235-253) -/

/-- `fd::readlink` for a readable symlink whose target is `target`.
`readlinkat(fd, path, buf, n)` stores and returns `min (length target) n`
bytes; `fstatat` reports `st_size = length target`.  The source calls the
second `readlinkat` with buffer size `sz` — the return value of the first
call, i.e. 4096 — although it allocates `st.st_size` bytes. -/
def readlinkM (target : List Char) : List Char :=
  let staticBufsize := 4096
  let sz := min target.length staticBufsize
  if sz < staticBufsize then target.take sz
  else
    let _stSize := target.length
    let sz2 := min target.length sz
    target.take sz2

/-! ## idmap and unshare_single (kons.hpp lines 30-67 and 215-228) -/

/-- An entry of `/proc/<pid>/[ug]id_map` (kons.hpp `idmap::entry`). -/
structure IdmapEntry where
  start : Nat
  host_start : Nat
  count : Nat
deriving DecidableEq

/-- The characters `idmap::set` streams for one entry:
`start << ' ' << host_start << ' ' << count << '\n'`. -/
def idmapLine (e : IdmapEntry) : List Char :=
  (toString e.start).toList ++ [' '] ++ (toString e.host_start).toList ++ [' '] ++
    (toString e.count).toList ++ ['\n']

/-- The full file content `idmap::set` writes for a map. -/
def idmapContent (m : List IdmapEntry) : List Char :=
  m.foldl (fun acc e => acc ++ idmapLine e) []

/-- `idmap::single(id, host_id)`: the one-entry map. -/
def idmapSingle (id hostId : Nat) : List IdmapEntry := [⟨id, hostId, 1⟩]

/-- The three /proc pseudo-files of the calling process written by
`unshare_single`; `none` = not (successfully) written. -/
structure ProcFiles where
  uidMap : Option (List Char)
  setgroupsFile : Option (List Char)
  gidMap : Option (List Char)
deriving DecidableEq

/-- Environment of one `unshare_single` call: whether each syscall/write
succeeds, and the caller's effective ids (read before unsharing). -/
structure UnshareEnv where
  unshareOk : Bool
  uidWriteOk : Bool
  setgWriteOk : Bool
  gidWriteOk : Bool
  euid : Nat
  egid : Nat
deriving DecidableEq

/-- `idmap::set`: on success the target file holds exactly the formatted
map; on failure the stream is not good and the content is unspecified
(modelled as `none`). -/
def idmapSet (ok : Bool) (m : List IdmapEntry) : Bool × Option (List Char) :=
  (ok, if ok then some (idmapContent m) else none)

/-- `idmap::disable_setgroups`: writes the literal string "deny". -/
def disableSetgroups (ok : Bool) : Bool × Option (List Char) :=
  (ok, if ok then some "deny".toList else none)

/-- `ko::ns::unshare_single(uid, gid, flags)` (kons.hpp lines 215-228):
unshare, then write uid_map, setgroups, gid_map, failing fast. -/
def unshareSingle (env : UnshareEnv) (st : ProcFiles) (uid gid : Nat) : Int × ProcFiles :=
  if env.unshareOk = false then (-1, st)
  else
    let w1 := idmapSet env.uidWriteOk (idmapSingle uid env.euid)
    let st1 := { st with uidMap := w1.2 }
    if w1.1 = false then (-1, st1)
    else
      let w2 := disableSetgroups env.setgWriteOk
      let st2 := { st1 with setgroupsFile := w2.2 }
      if w2.1 = false then (-1, st2)
      else
        let w3 := idmapSet env.gidWriteOk (idmapSingle gid env.egid)
        let st3 := { st2 with gidMap := w3.2 }
        if w3.1 = false then (-1, st3)
        else (0, st3)

/-! ## uvclone result protocol (kons_clone.hpp lines 38-66) -/

/-- Environment of one `uvclone` call: whether clone(2) succeeds, whether
each of the three id-map writes would succeed, and the errno value
observed after a failed write. -/
structure UvWorld where
  cloneOk : Bool
  uidOk : Bool
  setgOk : Bool
  gidOk : Bool
  errnoVal : Nat
deriving DecidableEq

/-- What `uvclone` returns and the child's state at that moment:
`childValid` is `proc`'s boolean conversion (pid > 0); `childWaited`
records whether `uvclone` reaped the child (it never does). -/
structure UvRet where
  childValid : Bool
  childWaited : Bool
  res : Int
deriving DecidableEq

/-- EINVAL. -/
def einval : Nat := 22

/-- The `(child_ref, errno)` result of `uvclone`: `res` starts as EINVAL;
if the clone succeeded the parent performs the id-map writes (each only
after the previous one succeeded) and `res` becomes 0 on full success or
the current errno otherwise. -/
def uvcloneRet (w : UvWorld) : UvRet :=
  if w.cloneOk = false then
    { childValid := false, childWaited := false, res := (einval : Int) }
  else
    { childValid := true, childWaited := false
      res := if w.uidOk ∧ (w.setgOk ∧ w.gidOk) then 0 else (w.errnoVal : Int) }

/-- Some attempted id-map write failed: the uid write is always attempted
once the clone succeeded, setgroups only after the uid write succeeded,
and the gid write only after both. -/
def someWriteFailed (w : UvWorld) : Prop :=
  w.cloneOk = true ∧ (w.uidOk = false ∨ w.setgOk = false ∨ w.gidOk = false)

instance (w : UvWorld) : Decidable (someWriteFailed w) := by
  unfold someWriteFailed; infer_instance

/-! ## cvshort (koutil.hpp lines 33-88) -/

/-- One step handed to a `cvshort` chain.  The four constructors are the
four overloads: `then`/`ifthen`, each either with a callable returning a
`cvresult` pair or with a label and a callable returning an int. -/
inductive CvStep where
  | thenR (res : Int × Option String)
  | thenL (name : String) (code : Int)
  | ifthenR (cond : Bool) (res : Int × Option String)
  | ifthenL (name : String) (cond : Bool) (code : Int)
deriving DecidableEq

/-- Whether the step's callable would be invoked when the accumulated
state is ok (`ifthen` steps are guarded by their condition). -/
def cvEnabled : CvStep → Bool
  | .thenR _ => true
  | .thenL _ _ => true
  | .ifthenR c _ => c
  | .ifthenL _ c _ => c

/-- The code the step's callable returns. -/
def cvCode : CvStep → Int
  | .thenR r => r.1
  | .thenL _ k => k
  | .ifthenR _ r => r.1
  | .ifthenL _ _ k => k

/-- The label the chain records when this step fails. -/
def cvFailLabel : CvStep → Option String
  | .thenR r => r.2
  | .thenL n _ => some n
  | .ifthenR _ r => r.2
  | .ifthenL n _ _ => some n

/-- One application of `then`/`ifthen` to the accumulator state
`(_state, _where)`, exactly following koutil.hpp: the callable only runs
when `_state == 0` (and the condition holds); the pair-returning variants
assign both components via `std::tie`, the labelled variants record the
label only on a non-zero code. -/
def cvApply (st : Int × Option String) (s : CvStep) : Int × Option String :=
  match s with
  | .thenR r => if st.1 = 0 then r else st
  | .thenL n k => if st.1 = 0 then (if k ≠ 0 then (k, some n) else (k, st.2)) else st
  | .ifthenR c r => if st.1 = 0 ∧ c = true then r else st
  | .ifthenL n c k =>
    if st.1 = 0 ∧ c = true then (if k ≠ 0 then (k, some n) else (k, st.2)) else st

/-- Running a whole chain from the freshly constructed accumulator
`{_state = 0, _where = nullptr}`. -/
def cvRun (steps : List CvStep) : Int × Option String :=
  steps.foldl cvApply (0, none)

/-! ## The steamns join path (steamns.cpp lines 496-513, 553, 578-623) -/

/-- Environment of the ns_path handling in steamns `main`: whether the
reference symlink itself exists (`lstat`), whether its target exists
(`stat` following the link), and the `-c`/`-D` mode flags. -/
structure JoinEnv where
  linkExists : Bool
  targetExists : Bool
  nsCreate : Bool
  dummyMode : Bool
deriving DecidableEq

/-- EEXIST. -/
def eexist : Nat := 17
/-- ENOENT. -/
def enoent : Nat := 2
/-- ENOTDIR. -/
def enotdir : Nat := 20

/-- The ns_path validation block (steamns.cpp lines 496-513).
`.error c` is an early `return c` from `main`; `.ok removed` says whether
the stale reference symlink was unlinked (`fs::remove`). -/
def nsPathCheck (e : JoinEnv) : Except Int Bool :=
  if e.linkExists = true then
    if e.nsCreate = true then .error (-(eexist : Int))
    else if e.targetExists = false then .ok true
    else .ok false
  else
    if e.nsCreate = false ∧ e.dummyMode = false then .error (-(enoent : Int))
    else .ok false

/-- The remainder of `main` in plain join mode: `opendir(ns_path)` only
succeeds when the (untouched) link still resolves; with an invalid
directory fd, `nsproc_join_parent`'s `setns` fails, the join lambda
returns an invalid `child_ref{-1}`, and `main` returns `proc.pid() = -1`
(lines 619-623).  `childResult` abstracts the exit status of the joined
child in the successful case. -/
def steamnsJoin (e : JoinEnv) (childResult : Int) : Int × Bool :=
  match nsPathCheck e with
  | .error c => (c, false)
  | .ok removed =>
    let fdOk := e.linkExists && !removed && e.targetExists
    if fdOk = true then (childResult, removed) else (-1, removed)

/-! ## A sequential filesystem model for fd::makedirs (kofd.hpp 331-352) -/

/-- A filesystem: an association of absolute-or-cwd-relative paths
(component lists) to a flag that is `true` for directories and `false`
for non-directories.  The empty component list is the implicit starting
directory and is always a directory. -/
abbrev Fsys := List (List String × Bool)

/-- First-match lookup. -/
def lookupFs : Fsys → List String → Option Bool
  | [], _ => none
  | e :: rest, p => if e.1 = p then some e.2 else lookupFs rest p

/-- All nonempty prefixes of a component list, shortest first — the
intermediate paths the kernel traverses when resolving it. -/
def prefixes : List String → List (List String)
  | [] => []
  | x :: xs => [x] :: (prefixes xs).map (fun q => x :: q)

/-- Walk a list of ancestor paths in resolution order: a missing one
yields ENOENT, a non-directory yields ENOTDIR. -/
def ancErr (fs : Fsys) : List (List String) → Option Nat
  | [] => none
  | q :: qs =>
    match lookupFs fs q with
    | some true => ancErr fs qs
    | some false => some enotdir
    | none => some enoent

/-- `fstatat`: resolve the ancestors, then report whether the final
component is a directory.  The empty path stands for "." which always
exists as a directory. -/
def statFs (fs : Fsys) (p : List String) : Except Nat Bool :=
  if p = [] then .ok true
  else
    match ancErr fs (prefixes p.dropLast) with
    | some e => .error e
    | none =>
      match lookupFs fs p with
      | some b => .ok b
      | none => .error enoent

/-- `mkdirat`: the ancestors must resolve to directories and the path
itself must not exist yet; on success the new directory is added. -/
def mkdirFs (fs : Fsys) (p : List String) : Except Nat Fsys :=
  if p = [] then .error eexist
  else
    match ancErr fs (prefixes p.dropLast) with
    | some e => .error e
    | none =>
      match lookupFs fs p with
      | some _ => .error eexist
      | none => .ok ((p, true) :: fs)

/-- `fd::makedirs`, structurally recursing on the reversed component
list (the parent path is the tail of the reversed list), following
kofd.hpp lines 331-352: stat the path; an existing directory yields 0,
an existing non-directory yields -1 with ENOTDIR, a stat error other
than ENOENT yields -1; otherwise recurse on the parent, create the
directory, and return `parents + 1` (or -1 when mkdir fails). -/
def makedirsAux (fs : Fsys) : List String → Int × Fsys
  | [] => (0, fs)
  | x :: rest =>
    match statFs fs ((x :: rest).reverse) with
    | .ok true => (0, fs)
    | .ok false => (-1, fs)
    | .error e =>
      if e ≠ enoent then (-1, fs)
      else
        let r := makedirsAux fs rest
        match mkdirFs r.2 ((x :: rest).reverse) with
        | .error _ => (-1, r.2)
        | .ok fs2 => (r.1 + 1, fs2)

/-- `fd::makedirs(path)` on filesystem `fs`: result code and the updated
filesystem. -/
def makedirs (fs : Fsys) (p : List String) : Int × Fsys :=
  makedirsAux fs p.reverse

/-- A well-formed filesystem: every recorded path has all of its strict
ancestors present as directories.  Real filesystems reachable by the
modelled syscalls satisfy this. -/
abbrev WfF (fs : Fsys) : Prop :=
  ∀ e ∈ fs, ∀ q ∈ prefixes e.1.dropLast, lookupFs fs q = some true

/-- `p` names a directory (the empty path is the starting directory). -/
abbrev IsDirF (fs : Fsys) (p : List String) : Prop :=
  p = [] ∨ lookupFs fs p = some true

/-! ## The uvclone rendezvous protocol (kons_clone.hpp 20-25 and 38-66,
koproc.hpp semapair) -/

/-- The observable events of one successful `uvclone` run.  On the child
side, `uvclone_entry` performs `sync.yield()` — a post on the parent's
semaphore (`cPost`) followed by a wait on its own (`cResume` is that wait
returning) — and only then invokes the user function (`cRun`).  On the
parent side, `wait()` returns (`pWait`), the id-map writes are attempted
(`wUid`, `wSetg`, `wGid`), and `post()` wakes the child (`pPost`). -/
inductive UvEv where
  | cPost
  | cResume
  | cRun
  | pWait
  | wUid
  | wSetg
  | wGid
  | pPost
deriving DecidableEq

/-- The parent's event sequence after a successful clone, as a function
of whether the uid-map write and the setgroups write succeed (kons_clone
lines 47-62): the uid write is always attempted, setgroups only when the
uid write succeeded, the gid write only when setgroups succeeded too, and
the post always happens last. -/
def parentProg : Bool → Bool → List UvEv
  | false, _ => [.pWait, .wUid, .pPost]
  | true, false => [.pWait, .wUid, .wSetg, .pPost]
  | true, true => [.pWait, .wUid, .wSetg, .wGid, .pPost]

/-- The cloned child's event sequence (`uvclone_entry`). -/
def childProg : List UvEv := [.cPost, .cResume, .cRun]

/-- `Interleave xs ys zs`: `zs` is an order-preserving merge of the two
process-local event sequences `xs` and `ys` — the set of schedules the
OS may produce. -/
inductive Interleave : List UvEv → List UvEv → List UvEv → Prop where
  | nil : Interleave [] [] []
  | left {x : UvEv} {xs ys zs : List UvEv} :
      Interleave xs ys zs → Interleave (x :: xs) ys (x :: zs)
  | right {y : UvEv} {xs ys zs : List UvEv} :
      Interleave xs ys zs → Interleave xs (y :: ys) (y :: zs)

/-- The semaphore discipline: the parent's `wait` can only return after
the child's `post` on that semaphore, and the child's `wait` (inside
`yield`) can only return after the parent's `post`.  Expressed over every
prefix of the schedule. -/
def SemOk (t : List UvEv) : Prop :=
  ∀ n ∈ List.range (t.length + 1),
    (UvEv.pWait ∈ t.take n → UvEv.cPost ∈ t.take n) ∧
    (UvEv.cResume ∈ t.take n → UvEv.pPost ∈ t.take n)

instance (t : List UvEv) : Decidable (SemOk t) := by
  unfold SemOk; infer_instance

/-- Position of an event in a schedule (length of the list when the event
does not occur). -/
def idxA : List UvEv → UvEv → Nat
  | [], _ => 0
  | x :: xs, a => if x = a then 0 else idxA xs a + 1

/-! ## Claims about overlayns string splitting and parsing -/

/-- One iteration of the outer `str_split` loop on the input whose final
separator is escaped: `find` locates the comma at index 2, the inner loop
skips it, runs off the end and breaks with `next = npos`; the loop body
then pushes the whole remaining string and computes
`start = npos + 1 = 0 (mod 2^64)`, returning the loop to its initial
position. -/
theorem strSplitLoop_step_diverge (fuel : Nat) (parts : List (List Char)) :
    strSplitLoop "a\\,b".toList ',' (fuel + 1) 0 parts =
      strSplitLoop "a\\,b".toList ',' fuel 0 (parts ++ ["a\\,b".toList]) := rfl

/-- C10: the claim that `str_split` terminates on every input is false:
on the four-character input `a\,b` (final separator escaped by a single
backslash) the loop re-enters its initial state `start = 0` after every
iteration because `start = npos + 1` wraps to 0, so no amount of fuel
makes the loop finish, while the claim asserts termination with a
non-empty fragment list. -/
theorem str_split_nonterminating :
    (∀ fuel parts, strSplitLoop "a\\,b".toList ',' fuel 0 parts = none) ∧
    strSplit "a\\,b".toList ',' = none := by
  have h : ∀ fuel parts, strSplitLoop "a\\,b".toList ',' fuel 0 parts = none := by
    intro fuel
    induction fuel with
    | zero => intro parts; rfl
    | succ m ih =>
      intro parts
      rw [strSplitLoop_step_diverge]
      exact ih _
  exact ⟨h, h _ _⟩

/-- C3: the source guards the field accesses with `s.size() < 3` — the
raw string length — instead of `parts.size() < 3`.  The spec string
"bind" splits into a single field, yet its length 4 passes the guard, so
instead of the claimed "Incomplete mount spec" parse error (and exit 33)
the parse reads `parts[1]` and `parts[2]` out of bounds. -/
theorem mount_spec_incomplete_check_bug :
    strSplit "bind".toList ',' = some ["bind".toList] ∧
    mountSpecParse "bind".toList = MountParse.oob ∧
    mountSpecParse "bind".toList ≠ MountParse.incomplete := by decide

deriving instance DecidableEq for Except

/-- C4: passthrough options of an overlay spec are dropped.  On the spec
`/mnt/x,lowerdir=/l,upperdir=/u,workdir=/w,noatime` the parser produces an
overlay mount whose fstype and source are "overlay" as claimed, but whose
option data is exactly `lowerdir=/l,upperdir=/u,workdir=/w`: the
passthrough option `noatime` was collected into the dead local `options`
vector and never reaches the mount arguments, contradicting the claim
that every passthrough option is included. -/
theorem overlay_passthrough_dropped :
    parseOverlaySpec none "/mnt/x,lowerdir=/l,upperdir=/u,workdir=/w,noatime".toList =
      some (.ok [OvStep.mount
        { type := "overlay".toList, device := "overlay".toList
          mountpoint := "/mnt/x".toList, flags := 0
          args := ["lowerdir=/l".toList, "upperdir=/u".toList, "workdir=/w".toList] }]) ∧
    executeData
        { type := "overlay".toList, device := "overlay".toList
          mountpoint := "/mnt/x".toList, flags := 0
          args := ["lowerdir=/l".toList, "upperdir=/u".toList, "workdir=/w".toList] } =
      "lowerdir=/l,upperdir=/u,workdir=/w".toList ∧
    "noatime".toList ∉ ["lowerdir=/l".toList, "upperdir=/u".toList, "workdir=/w".toList] := by
  decide

/-! ## Claim about fd::readlink -/

/-- C7: a symlink target of 4097 bytes comes back truncated to 4096
bytes: the retry allocates a large enough buffer but passes the previous
return value `sz = 4096` as the buffer size to the second `readlinkat`,
so the function returns a truncated path, contradicting the claim. -/
theorem readlink_long_target_truncated :
    readlinkM (List.replicate 4097 'a') = List.replicate 4096 'a' ∧
    readlinkM (List.replicate 4097 'a') ≠ List.replicate 4097 'a' := by
  have h1 : readlinkM (List.replicate 4097 'a') = List.replicate 4096 'a' := by
    norm_num [readlinkM, List.take_replicate]
  refine ⟨h1, ?_⟩
  rw [h1]
  intro h
  have := congrArg List.length h
  simp only [List.length_replicate] at this
  omega

/-! ## Claims about uvclone's returned errno and the join path -/

/-- C2 counterexample: when clone(2) itself fails, `uvclone` returns the
initial errno value EINVAL — non-zero — although no id-map write was
attempted (none failed) and no child process exists, contradicting both
halves of the claim as stated. -/
theorem uvclone_errno_counterexample :
    (uvcloneRet ⟨false, true, true, true, 0⟩).res ≠ 0 ∧
    ¬ someWriteFailed ⟨false, true, true, true, 0⟩ ∧
    (uvcloneRet ⟨false, true, true, true, 0⟩).childValid = false := by decide

/-- C2 amended: provided the clone succeeds, the errno component is
non-zero only if one of the attempted id-map writes failed, and in every
such call the cloned child still exists when the pair is returned —
`uvclone` neither waits for nor kills it. -/
theorem uvclone_errno_amended (w : UvWorld) (h : w.cloneOk = true) :
    ((uvcloneRet w).res ≠ 0 → someWriteFailed w) ∧
    (uvcloneRet w).childValid = true ∧ (uvcloneRet w).childWaited = false := by
  obtain ⟨co, uo, so, go, ev⟩ := w
  cases co
  · simp at h
  · cases uo <;> cases so <;> cases go <;>
      simp [uvcloneRet, someWriteFailed]

theorem uvclone_errno_amended_witness :
    (⟨true, true, true, true, 7⟩ : UvWorld).cloneOk = true ∧
    (((uvcloneRet ⟨true, true, true, true, 7⟩).res ≠ 0 →
        someWriteFailed ⟨true, true, true, true, 7⟩) ∧
      (uvcloneRet ⟨true, true, true, true, 7⟩).childValid = true ∧
      (uvcloneRet ⟨true, true, true, true, 7⟩).childWaited = false) :=
  ⟨rfl, uvclone_errno_amended ⟨true, true, true, true, 7⟩ rfl⟩

/-- C9 counterexample: in plain join mode, on a reference symlink whose
target is gone, `main` removes the stale link but then proceeds: the
removed reference can no longer be opened, `setns` fails on the invalid
fd, and the program returns -1 (the invalid child ref's pid) — not
-ENOENT as the claim states. -/
theorem join_stale_counterexample :
    steamnsJoin ⟨true, false, false, false⟩ 0 = (-1, true) ∧
    (-1 : Int) ≠ -(enoent : Int) := by decide

/-- C9 amended: on a stale reference the join path does unlink the stale
symlink and performs no other state change, but it does not return
ENOENT: execution continues, the removed reference fails to open, and the
program exits with -1; the -ENOENT return is produced only when the
reference symlink itself does not exist. -/
theorem join_stale_amended (e : JoinEnv) (cr : Int)
    (hc : e.nsCreate = false) (hd : e.dummyMode = false) :
    (e.linkExists = true → e.targetExists = false → steamnsJoin e cr = (-1, true)) ∧
    (e.linkExists = false → steamnsJoin e cr = (-(enoent : Int), false)) := by
  obtain ⟨l, tg, c, d⟩ := e
  simp only at hc hd
  subst hc hd
  constructor
  · intro hl ht
    simp only at hl ht
    subst hl ht
    rfl
  · intro hl
    simp only at hl
    subst hl
    rfl

theorem join_stale_amended_witness :
    (⟨true, false, false, false⟩ : JoinEnv).nsCreate = false ∧
    (⟨true, false, false, false⟩ : JoinEnv).linkExists = true ∧
    steamnsJoin ⟨true, false, false, false⟩ 0 = (-1, true) :=
  ⟨rfl, rfl, (join_stale_amended ⟨true, false, false, false⟩ 0 rfl rfl).1 rfl rfl⟩

/-! ## Claim about unshare_single -/

/-- C5: after a successful `unshare_single(uid, gid, flags)`, the
process's uid_map holds exactly the single line
`uid <euid> 1\n` (euid read before unsharing), setgroups holds "deny",
and gid_map holds the analogous line `gid <egid> 1\n`. -/
theorem unshare_single_proc_files (env : UnshareEnv) (st : ProcFiles) (uid gid : Nat)
    (h : (unshareSingle env st uid gid).1 = 0) :
    (unshareSingle env st uid gid).2.uidMap =
      some ((toString uid).toList ++ [' '] ++ (toString env.euid).toList ++ [' ', '1', '\n']) ∧
    (unshareSingle env st uid gid).2.setgroupsFile = some "deny".toList ∧
    (unshareSingle env st uid gid).2.gidMap =
      some ((toString gid).toList ++ [' '] ++ (toString env.egid).toList ++ [' ', '1', '\n']) := by
  obtain ⟨u0, u1, u2, u3, euid, egid⟩ := env
  have hone : (toString (1 : Nat)).toList = ['1'] := rfl
  cases u0 <;> cases u1 <;> cases u2 <;> cases u3 <;>
    simp_all [unshareSingle, idmapSet, disableSetgroups, idmapContent, idmapLine, idmapSingle]

theorem unshare_single_proc_files_witness :
    (unshareSingle ⟨true, true, true, true, 1000, 1000⟩ ⟨none, none, none⟩ 1000 1000).1 = 0 ∧
    (unshareSingle ⟨true, true, true, true, 1000, 1000⟩ ⟨none, none, none⟩ 1000 1000).2.uidMap =
      some ((toString (1000 : Nat)).toList ++ [' '] ++ (toString (1000 : Nat)).toList ++ [' ', '1', '\n']) ∧
    (unshareSingle ⟨true, true, true, true, 1000, 1000⟩ ⟨none, none, none⟩ 1000 1000).2.setgroupsFile =
      some "deny".toList :=
  ⟨by decide,
    (unshare_single_proc_files ⟨true, true, true, true, 1000, 1000⟩ ⟨none, none, none⟩ 1000 1000
      (by decide)).1,
    (unshare_single_proc_files ⟨true, true, true, true, 1000, 1000⟩ ⟨none, none, none⟩ 1000 1000
      (by decide)).2.1⟩

/-! ## Claim about the cvshort chain -/

/-- Folding a chain whose enabled steps all return 0 keeps the state
component at 0 (the label may still be overwritten by the pair-returning
variants, matching the `std::tie` assignment). -/
theorem cv_ok (l : List CvStep) (h : ∀ s ∈ l, cvEnabled s = true → cvCode s = 0) :
    ∀ lbl, (l.foldl cvApply (0, lbl)).1 = 0 := by
  induction l with
  | nil => intro lbl; rfl
  | cons s rest ih =>
    intro lbl
    have hs := h s (List.mem_cons_self s rest)
    have hrest : ∀ x ∈ rest, cvEnabled x = true → cvCode x = 0 :=
      fun x hx => h x (List.mem_cons_of_mem _ hx)
    rw [List.foldl_cons]
    rcases s with r | ⟨n, k⟩ | ⟨c, r⟩ | ⟨n, c, k⟩
    · have hr : r.1 = 0 := hs rfl
      have : cvApply (0, lbl) (.thenR r) = (0, r.2) := by
        simp [cvApply]
        exact Prod.ext hr rfl
      rw [this]; exact ih hrest r.2
    · have hk : k = 0 := hs rfl
      have : cvApply (0, lbl) (.thenL n k) = (0, lbl) := by simp [cvApply, hk]
      rw [this]; exact ih hrest lbl
    · cases c with
      | false =>
        have : cvApply (0, lbl) (.ifthenR false r) = (0, lbl) := by simp [cvApply]
        rw [this]; exact ih hrest lbl
      | true =>
        have hr : r.1 = 0 := hs rfl
        have : cvApply (0, lbl) (.ifthenR true r) = (0, r.2) := by
          simp [cvApply]
          exact Prod.ext hr rfl
        rw [this]; exact ih hrest r.2
    · cases c with
      | false =>
        have : cvApply (0, lbl) (.ifthenL n false k) = (0, lbl) := by simp [cvApply]
        rw [this]; exact ih hrest lbl
      | true =>
        have hk : k = 0 := hs rfl
        have : cvApply (0, lbl) (.ifthenL n true k) = (0, lbl) := by simp [cvApply, hk]
        rw [this]; exact ih hrest lbl

/-- Once the state is non-zero no step changes the accumulator. -/
theorem cv_frozen (l : List CvStep) (st : Int × Option String) (h : st.1 ≠ 0) :
    l.foldl cvApply st = st := by
  induction l with
  | nil => rfl
  | cons s rest ih =>
    have : cvApply st s = st := by
      rcases s with r | ⟨n, k⟩ | ⟨c, r⟩ | ⟨n, c, k⟩ <;> simp [cvApply, h]
    rw [List.foldl_cons, this, ih]

/-- Applying an enabled failing step to an ok state yields exactly that
step's code and fail label. -/
theorem cv_fail_step (st : Int × Option String) (s : CvStep) (h0 : st.1 = 0)
    (hen : cvEnabled s = true) (hc : cvCode s ≠ 0) :
    cvApply st s = (cvCode s, cvFailLabel s) := by
  rcases s with r | ⟨n, k⟩ | ⟨c, r⟩ | ⟨n, c, k⟩ <;>
    simp_all [cvApply, cvEnabled, cvCode, cvFailLabel]

/-- C6: a cvshort chain applies its enabled callables in order while the
accumulated state is 0; the first enabled step with a non-zero code
freezes the accumulator at that step's `(code, label)` pair, which is
also the chain's final value, and — since the state is then non-zero —
no later callable is ever invoked; if every enabled step returns 0 the
final code is 0. -/
theorem cvshort_chain_spec (steps : List CvStep) :
    ((∀ s ∈ steps, cvEnabled s = true → cvCode s = 0) → (cvRun steps).1 = 0) ∧
    (∀ pre sk post, steps = pre ++ sk :: post →
      (∀ s ∈ pre, cvEnabled s = true → cvCode s = 0) →
      cvEnabled sk = true → cvCode sk ≠ 0 →
      (∀ mid suf, pre = mid ++ suf → (cvRun mid).1 = 0) ∧
      cvRun steps = (cvCode sk, cvFailLabel sk) ∧
      (∀ mid suf, post = mid ++ suf →
        cvRun (pre ++ sk :: mid) = (cvCode sk, cvFailLabel sk))) := by
  constructor
  · intro h; exact cv_ok steps h none
  · intro pre sk post hsplit hpre hen hc
    have key : ∀ mid : List CvStep,
        cvRun (pre ++ sk :: mid) = (cvCode sk, cvFailLabel sk) := by
      intro mid
      unfold cvRun
      rw [List.foldl_append, List.foldl_cons]
      rw [cv_fail_step _ sk (cv_ok pre hpre none) hen hc]
      exact cv_frozen mid _ hc
    refine ⟨?_, ?_, fun mid suf hm => key mid⟩
    · intro mid suf hm
      have hmid : ∀ s ∈ mid, cvEnabled s = true → cvCode s = 0 := by
        intro s hs
        exact hpre s (by rw [hm]; exact List.mem_append_left _ hs)
      exact cv_ok mid hmid none
    · rw [hsplit]; exact key post

theorem cvshort_chain_spec_witness :
    cvEnabled (CvStep.thenR (5, some "boom")) = true ∧
    cvCode (CvStep.thenR (5, some "boom")) ≠ 0 ∧
    cvRun [CvStep.thenL "a" 0, CvStep.ifthenL "skip" false 3,
      CvStep.thenR (5, some "boom"), CvStep.thenL "later" 7] = (5, some "boom") :=
  ⟨rfl, by decide,
    ((cvshort_chain_spec [CvStep.thenL "a" 0, CvStep.ifthenL "skip" false 3,
        CvStep.thenR (5, some "boom"), CvStep.thenL "later" 7]).2
      [CvStep.thenL "a" 0, CvStep.ifthenL "skip" false 3] (CvStep.thenR (5, some "boom"))
      [CvStep.thenL "later" 7] rfl (by decide) rfl (by decide)).2.1⟩

/-! ## Claim about fd::makedirs -/

theorem mem_prefixes_length {q : List String} :
    ∀ {l : List String}, q ∈ prefixes l → 1 ≤ q.length ∧ q.length ≤ l.length := by
  intro l
  induction l generalizing q with
  | nil => intro h; simp [prefixes] at h
  | cons x xs ih =>
    intro h
    simp only [prefixes, List.mem_cons, List.mem_map] at h
    rcases h with rfl | ⟨a, ha, rfl⟩
    · simp
    · have := ih ha
      simp only [List.length_cons]
      omega

theorem self_mem_prefixes : ∀ {l : List String}, l ≠ [] → l ∈ prefixes l := by
  intro l
  induction l with
  | nil => intro h; exact absurd rfl h
  | cons x xs ih =>
    intro _
    by_cases hxs : xs = []
    · subst hxs; simp [prefixes]
    · simp only [prefixes, List.mem_cons, List.mem_map]
      exact Or.inr ⟨xs, ih hxs, rfl⟩

theorem prefixes_snoc (l : List String) (a : String) :
    prefixes (l ++ [a]) = prefixes l ++ [l ++ [a]] := by
  induction l with
  | nil => simp [prefixes]
  | cons x xs ih =>
    have hstep : (x :: xs) ++ [a] = x :: (xs ++ [a]) := rfl
    rw [hstep, prefixes, ih, prefixes]
    simp

theorem prefixes_sub {l : List String} {a : String} {q : List String}
    (h : q ∈ prefixes l) : q ∈ prefixes (l ++ [a]) := by
  rw [prefixes_snoc]
  exact List.mem_append_left _ h

theorem mem_prefixes_split {p : List String} (hp : p ≠ []) {q : List String}
    (h : q ∈ prefixes p) : q ∈ prefixes p.dropLast ∨ q = p := by
  have hdl : p.dropLast ++ [p.getLast hp] = p := List.dropLast_append_getLast hp
  rw [← hdl] at h
  rw [prefixes_snoc] at h
  rcases List.mem_append.1 h with h1 | h1
  · exact Or.inl h1
  · right
    simp only [List.mem_singleton] at h1
    rw [h1, hdl]

theorem ancErr_none_iff (fs : Fsys) (l : List (List String)) :
    ancErr fs l = none ↔ ∀ q ∈ l, lookupFs fs q = some true := by
  induction l with
  | nil => simp [ancErr]
  | cons q qs ih =>
    rw [List.forall_mem_cons]
    cases hq : lookupFs fs q with
    | none => simp [ancErr, hq]
    | some b => cases b <;> simp [ancErr, hq, ih]

theorem lookupFs_mem {fs : Fsys} {p : List String} {b : Bool}
    (h : lookupFs fs p = some b) : (p, b) ∈ fs := by
  induction fs with
  | nil => simp [lookupFs] at h
  | cons e rest ih =>
    by_cases he : e.1 = p
    · simp only [lookupFs, if_pos he] at h
      obtain ⟨e1, e2⟩ := e
      simp only at he
      simp only [Option.some.injEq] at h
      subst he
      subst h
      exact List.mem_cons_self _ _
    · simp only [lookupFs, if_neg he] at h
      exact List.mem_cons_of_mem _ (ih h)

theorem statFs_ok_lookup {fs : Fsys} {p : List String} {b : Bool}
    (hp : p ≠ []) (h : statFs fs p = .ok b) : lookupFs fs p = some b := by
  unfold statFs at h
  rw [if_neg hp] at h
  cases ha : ancErr fs (prefixes p.dropLast) with
  | some e => rw [ha] at h; simp at h
  | none =>
    rw [ha] at h
    cases hl : lookupFs fs p with
    | some c => rw [hl] at h; simp only [Except.ok.injEq] at h; rw [h]
    | none => rw [hl] at h; simp at h

theorem statFs_error_not_dir {fs : Fsys} {p : List String} {e : Nat}
    (wf : WfF fs) (h : statFs fs p = .error e) : lookupFs fs p ≠ some true := by
  intro hl
  have hp : p ≠ [] := by
    intro hpe
    rw [hpe] at h
    simp [statFs] at h
  unfold statFs at h
  rw [if_neg hp] at h
  cases ha : ancErr fs (prefixes p.dropLast) with
  | none => rw [ha, hl] at h; simp at h
  | some e2 =>
    have hmem := lookupFs_mem hl
    have hall : ∀ q ∈ prefixes p.dropLast, lookupFs fs q = some true :=
      fun q hq => wf (p, true) hmem q hq
    rw [(ancErr_none_iff fs _).2 hall] at ha
    simp at ha

theorem statFs_enoent_lookup {fs : Fsys} {p : List String}
    (wf : WfF fs) (h : statFs fs p = .error enoent) : lookupFs fs p = none := by
  have h1 := statFs_error_not_dir wf h
  cases hl : lookupFs fs p with
  | none => rfl
  | some b =>
    cases b with
    | true => exact absurd hl h1
    | false =>
      have hp : p ≠ [] := by
        intro hpe
        rw [hpe] at h
        simp [statFs] at h
      have hmem := lookupFs_mem hl
      have hall : ∀ q ∈ prefixes p.dropLast, lookupFs fs q = some true :=
        fun q hq => wf (p, false) hmem q hq
      unfold statFs at h
      rw [if_neg hp, (ancErr_none_iff fs _).2 hall, hl] at h
      simp at h

theorem mkdirFs_ok_inv {fs : Fsys} {p : List String} {fs2 : Fsys}
    (h : mkdirFs fs p = .ok fs2) :
    p ≠ [] ∧ ancErr fs (prefixes p.dropLast) = none ∧ lookupFs fs p = none ∧
      fs2 = (p, true) :: fs := by
  by_cases hp : p = []
  · rw [hp] at h; simp [mkdirFs] at h
  · unfold mkdirFs at h
    rw [if_neg hp] at h
    cases ha : ancErr fs (prefixes p.dropLast) with
    | some e => rw [ha] at h; simp at h
    | none =>
      rw [ha] at h
      cases hl : lookupFs fs p with
      | some b => rw [hl] at h; simp at h
      | none =>
        rw [hl] at h
        simp only [Except.ok.injEq] at h
        exact ⟨hp, rfl, rfl, h.symm⟩

theorem wf_insert {fs : Fsys} {p : List String} (wf : WfF fs)
    (hanc : ∀ q ∈ prefixes p.dropLast, lookupFs fs q = some true) :
    WfF ((p, true) :: fs) := by
  intro e he q hq
  have hlift : ∀ r, lookupFs fs r = some true → lookupFs ((p, true) :: fs) r = some true := by
    intro r hr
    by_cases hrp : p = r
    · subst hrp; simp [lookupFs]
    · simp only [lookupFs, if_neg hrp]
      exact hr
  rcases List.mem_cons.1 he with rfl | he2
  · exact hlift q (hanc q hq)
  · exact hlift q (wf e he2 q hq)

/-- Master induction for `makedirsAux` over a well-formed filesystem:
well-formedness is preserved, existing entries are preserved, only
prefixes of the argument path are added, and the result is either -1 with
the path still not a directory, or a count `n` with exactly `n` new
entries and the path now a directory. -/
theorem makedirs_master (rev : List String) : ∀ fs : Fsys, WfF fs →
    WfF (makedirsAux fs rev).2 ∧
    (∀ q b, lookupFs fs q = some b → lookupFs (makedirsAux fs rev).2 q = some b) ∧
    (∀ q, lookupFs fs q = none →
      lookupFs (makedirsAux fs rev).2 q = none ∨ q ∈ prefixes rev.reverse) ∧
    (((makedirsAux fs rev).1 = -1 ∧ ¬ IsDirF (makedirsAux fs rev).2 rev.reverse) ∨
      (∃ n : Nat, (makedirsAux fs rev).1 = (n : Int) ∧
        (makedirsAux fs rev).2.length = fs.length + n ∧
        IsDirF (makedirsAux fs rev).2 rev.reverse)) := by
  induction rev with
  | nil =>
    intro fs wf
    exact ⟨wf, fun q b h => h, fun q h => Or.inl h, Or.inr ⟨0, rfl, rfl, Or.inl rfl⟩⟩
  | cons x rest ih =>
    intro fs wf
    simp only [List.reverse_cons]
    have hp : rest.reverse ++ [x] ≠ [] := by simp
    cases hs : statFs fs (rest.reverse ++ [x]) with
    | ok b =>
      cases b with
      | true =>
        have hred : makedirsAux fs (x :: rest) = (0, fs) := by
          simp [makedirsAux, hs]
        rw [hred]
        exact ⟨wf, fun q b h => h, fun q h => Or.inl h,
          Or.inr ⟨0, rfl, rfl, Or.inr (statFs_ok_lookup hp hs)⟩⟩
      | false =>
        have hred : makedirsAux fs (x :: rest) = (-1, fs) := by
          simp [makedirsAux, hs]
        rw [hred]
        refine ⟨wf, fun q b h => h, fun q h => Or.inl h, Or.inl ⟨rfl, ?_⟩⟩
        intro hdir
        rcases hdir with h1 | h1
        · exact hp h1
        · rw [statFs_ok_lookup hp hs] at h1
          simp at h1
    | error e =>
      by_cases he : e = enoent
      · subst he
        obtain ⟨ihWf, ihMono, ihNew, ihRes⟩ := ih fs wf
        have hlook : lookupFs fs (rest.reverse ++ [x]) = none := statFs_enoent_lookup wf hs
        cases hm : mkdirFs (makedirsAux fs rest).2 (rest.reverse ++ [x]) with
        | error err =>
          have hred : makedirsAux fs (x :: rest) = (-1, (makedirsAux fs rest).2) := by
            simp [makedirsAux, hs, hm]
          rw [hred]
          refine ⟨ihWf, ihMono, ?_, Or.inl ⟨rfl, ?_⟩⟩
          · intro q h
            rcases ihNew q h with h1 | h1
            · exact Or.inl h1
            · exact Or.inr (prefixes_sub h1)
          · intro hdir
            rcases hdir with h1 | h1
            · exact hp h1
            · rcases ihNew _ hlook with h2 | h2
              · rw [h2] at h1; simp at h1
              · have hlen := (mem_prefixes_length h2).2
                simp at hlen
        | ok fs2 =>
          obtain ⟨hpne, hanc, hnone, hfs2⟩ := mkdirFs_ok_inv hm
          have hred : makedirsAux fs (x :: rest) = ((makedirsAux fs rest).1 + 1, fs2) := by
            simp [makedirsAux, hs, hm]
          rw [hred]
          rw [List.dropLast_concat] at hanc
          have hancAll : ∀ q ∈ prefixes rest.reverse,
              lookupFs (makedirsAux fs rest).2 q = some true :=
            (ancErr_none_iff _ _).1 hanc
          have hpar : ∃ n : Nat, (makedirsAux fs rest).1 = (n : Int) ∧
              (makedirsAux fs rest).2.length = fs.length + n ∧
              IsDirF (makedirsAux fs rest).2 rest.reverse := by
            rcases ihRes with ⟨_, hnd⟩ | hgood
            · exfalso
              apply hnd
              by_cases hre : rest.reverse = []
              · exact Or.inl hre
              · exact Or.inr (hancAll _ (self_mem_prefixes hre))
            · exact hgood
          obtain ⟨n, hres, hlen, _⟩ := hpar
          refine ⟨?_, ?_, ?_, Or.inr ⟨n + 1, ?_, ?_, ?_⟩⟩
          · rw [hfs2]
            refine wf_insert ihWf ?_
            intro q hq
            rw [List.dropLast_concat] at hq
            exact hancAll q hq
          · intro q b h
            have h1 := ihMono q b h
            rw [hfs2]
            by_cases hq : (rest.reverse ++ [x]) = q
            · exfalso
              rw [← hq] at h1
              rw [h1] at hnone
              simp at hnone
            · simp only [lookupFs, if_neg hq]
              exact h1
          · intro q h
            rcases ihNew q h with h1 | h1
            · rw [hfs2]
              by_cases hq : (rest.reverse ++ [x]) = q
              · right
                rw [← hq]
                exact self_mem_prefixes hpne
              · left
                simp only [lookupFs, if_neg hq]
                exact h1
            · exact Or.inr (prefixes_sub h1)
          · rw [hres]
            push_cast
            ring
          · rw [hfs2]
            simp only [List.length_cons]
            omega
          · right
            rw [hfs2]
            simp [lookupFs]
      · have hred : makedirsAux fs (x :: rest) = (-1, fs) := by
          simp [makedirsAux, hs, he]
        rw [hred]
        refine ⟨wf, fun q b h => h, fun q h => Or.inl h, Or.inl ⟨rfl, ?_⟩⟩
        intro hdir
        rcases hdir with h1 | h1
        · exact hp h1
        · exact statFs_error_not_dir wf hs h1

/-- C8: on a well-formed filesystem, `fd::makedirs` returns 0 leaving the
filesystem unchanged when the full path already exists as a directory;
it returns -1 when some component of the path exists but is not a
directory; and whenever it returns a non-negative count `n`, exactly `n`
directories were newly created and the full path is a directory
afterwards (each missing ancestor having been created before its child,
as the ancestors of every recorded path are directories). -/
theorem makedirs_spec (fs : Fsys) (p : List String) (wf : WfF fs) (n : Nat) :
    (statFs fs p = .ok true → makedirs fs p = (0, fs)) ∧
    ((∃ q ∈ prefixes p, lookupFs fs q = some false) → (makedirs fs p).1 = -1) ∧
    ((makedirs fs p).1 = (n : Int) →
      (makedirs fs p).2.length = fs.length + n ∧ IsDirF (makedirs fs p).2 p) := by
  obtain ⟨mWf, mMono, mNew, mRes⟩ := makedirs_master p.reverse fs wf
  rw [List.reverse_reverse] at mNew mRes
  refine ⟨?_, ?_, ?_⟩
  · intro hst
    rcases hrev : p.reverse with _ | ⟨x, rest⟩
    · have hpnil : p = [] := by
        have := congrArg List.reverse hrev
        rwa [List.reverse_reverse] at this
      rw [hpnil]
      rfl
    · have hback : rest.reverse ++ [x] = p := by
        have := congrArg List.reverse hrev
        rw [List.reverse_reverse] at this
        rw [this, List.reverse_cons]
      simp only [makedirs, hrev]
      have hst2 : statFs fs (rest.reverse ++ [x]) = .ok true := by rw [hback]; exact hst
      simp [makedirsAux, hst2]
  · rintro ⟨q, hq, hfalse⟩
    simp only [makedirs]
    rcases mRes with ⟨h1, _⟩ | ⟨m, hres, hlen, hdir⟩
    · exact h1
    · exfalso
      have hpne : p ≠ [] := by
        intro hpe
        rw [hpe] at hq
        simp [prefixes] at hq
      rcases hdir with h1 | h1
      · exact hpne h1
      · have hq2 := mMono q false hfalse
        have hmem := lookupFs_mem h1
        rcases mem_prefixes_split hpne hq with h2 | h2
        · have h3 := mWf (p, true) hmem q h2
          rw [h3] at hq2
          simp at hq2
        · rw [h2] at hq2
          rw [h1] at hq2
          simp at hq2
  · intro hres0
    simp only [makedirs] at hres0 ⊢
    rcases mRes with ⟨h1, _⟩ | ⟨m, hres, hlen, hdir⟩
    · rw [h1] at hres0
      omega
    · rw [hres] at hres0
      have hmn : m = n := by exact_mod_cast hres0
      rw [← hmn]
      exact ⟨hlen, hdir⟩

theorem makedirs_spec_witness :
    WfF [([("a" : String)], true)] ∧
    (makedirs [([("a" : String)], true)] ["a", "b"]).1 = ((1 : Nat) : Int) ∧
    ((makedirs [([("a" : String)], true)] ["a", "b"]).2.length =
        [([("a" : String)], true)].length + 1 ∧
      IsDirF (makedirs [([("a" : String)], true)] ["a", "b"]).2 ["a", "b"]) :=
  ⟨by decide, by decide,
    (makedirs_spec [([("a" : String)], true)] ["a", "b"] (by decide) 1).2.2 (by decide)⟩

/-! ## Claim about the uvclone rendezvous ordering -/

theorem interleave_perm {xs ys zs : List UvEv} (h : Interleave xs ys zs) :
    List.Perm zs (xs ++ ys) := by
  induction h with
  | nil => exact List.Perm.refl _
  | left _ ih => exact ih.cons _
  | right _ ih => exact (ih.cons _).trans List.perm_middle.symm

theorem interleave_sublist_left {xs ys zs : List UvEv} (h : Interleave xs ys zs) :
    List.Sublist xs zs := by
  induction h with
  | nil => exact List.Sublist.slnil
  | left _ ih => exact List.Sublist.cons₂ _ ih
  | right _ ih => exact List.Sublist.cons _ ih

theorem interleave_sublist_right {xs ys zs : List UvEv} (h : Interleave xs ys zs) :
    List.Sublist ys zs := by
  induction h with
  | nil => exact List.Sublist.slnil
  | left _ ih => exact List.Sublist.cons _ ih
  | right _ ih => exact List.Sublist.cons₂ _ ih

theorem idxA_lt_length {t : List UvEv} {a : UvEv} (h : a ∈ t) : idxA t a < t.length := by
  induction t with
  | nil => simp at h
  | cons x xs ih =>
    by_cases hx : x = a
    · simp [idxA, hx]
    · have hmem : a ∈ xs := by
        rcases List.mem_cons.1 h with h1 | h1
        · exact absurd h1.symm hx
        · exact h1
      have := ih hmem
      simp only [idxA, if_neg hx, List.length_cons]
      omega

theorem mem_take_idxA_lt {t : List UvEv} {a : UvEv} {n : Nat} (h : a ∈ t.take n) :
    idxA t a < n := by
  induction t generalizing n with
  | nil => simp at h
  | cons x xs ih =>
    cases n with
    | zero => simp at h
    | succ m =>
      by_cases hx : x = a
      · simp [idxA, hx]
      · rw [List.take_succ_cons] at h
        have hmem : a ∈ xs.take m := by
          rcases List.mem_cons.1 h with h1 | h1
          · exact absurd h1.symm hx
          · exact h1
        have := ih hmem
        simp only [idxA, if_neg hx]
        omega

theorem mem_take_self {t : List UvEv} {a : UvEv} (h : a ∈ t) :
    a ∈ t.take (idxA t a + 1) := by
  induction t with
  | nil => simp at h
  | cons x xs ih =>
    by_cases hx : x = a
    · simp [idxA, hx, List.take_succ_cons]
    · have hmem : a ∈ xs := by
        rcases List.mem_cons.1 h with h1 | h1
        · exact absurd h1.symm hx
        · exact h1
      simp only [idxA, if_neg hx, List.take_succ_cons]
      exact List.mem_cons_of_mem _ (ih hmem)

theorem idxA_inj {t : List UvEv} {a b : UvEv} (ha : a ∈ t) (hb : b ∈ t)
    (h : idxA t a = idxA t b) : a = b := by
  induction t with
  | nil => simp at ha
  | cons x xs ih =>
    by_cases hxa : x = a <;> by_cases hxb : x = b
    · rw [← hxa, hxb]
    · exfalso
      simp only [idxA, if_pos hxa, if_neg hxb] at h
      omega
    · exfalso
      simp only [idxA, if_neg hxa, if_pos hxb] at h
      omega
    · simp only [idxA, if_neg hxa, if_neg hxb, Nat.add_right_cancel_iff] at h
      have hma : a ∈ xs := by
        rcases List.mem_cons.1 ha with h1 | h1
        · exact absurd h1.symm hxa
        · exact h1
      have hmb : b ∈ xs := by
        rcases List.mem_cons.1 hb with h1 | h1
        · exact absurd h1.symm hxb
        · exact h1
      exact ih hma hmb h

theorem pair_sublist_idxA {a b : UvEv} {t : List UvEv}
    (h : List.Sublist [a, b] t) (nd : t.Nodup) : idxA t a < idxA t b := by
  induction t with
  | nil => cases h
  | cons x xs ih =>
    rw [List.nodup_cons] at nd
    cases h with
    | cons _ h2 =>
      have ha : a ∈ xs := h2.subset (by simp)
      have hb : b ∈ xs := h2.subset (by simp)
      have hxa : x ≠ a := fun he => nd.1 (he ▸ ha)
      have hxb : x ≠ b := fun he => nd.1 (he ▸ hb)
      simp only [idxA, if_neg hxa, if_neg hxb]
      have := ih h2 nd.2
      omega
    | cons₂ _ h2 =>
      have hb : b ∈ xs := h2.subset (by simp)
      have hab : a ≠ b := fun he => nd.1 (he ▸ hb)
      have h0 : idxA (a :: xs) a = 0 := by simp [idxA]
      have h1 : idxA (a :: xs) b = idxA xs b + 1 := by simp [idxA, hab]
      rw [h0, h1]
      omega

/-- A wait that can only complete after a matching post: if in every
admissible prefix the completed wait is preceded by the post, the post's
index is strictly smaller. -/
theorem sem_before {t : List UvEv} {a b : UvEv} (ha : a ∈ t)
    (h : ∀ n ∈ List.range (t.length + 1), a ∈ t.take n → b ∈ t.take n)
    (hne : b ≠ a) : idxA t b < idxA t a := by
  have h1 : a ∈ t.take (idxA t a + 1) := mem_take_self ha
  have h2 : idxA t a + 1 ∈ List.range (t.length + 1) := by
    rw [List.mem_range]
    have := idxA_lt_length ha
    omega
  have h3 := h _ h2 h1
  have h4 : idxA t b < idxA t a + 1 := mem_take_idxA_lt h3
  have h5 : b ∈ t := (List.take_subset _ _) h3
  rcases Nat.lt_or_ge (idxA t b) (idxA t a) with h6 | h6
  · exact h6
  · exfalso
    have h7 : idxA t b = idxA t a := by omega
    exact hne (idxA_inj h5 ha h7)

/-- C1: in every admissible schedule of a successful `uvclone` (any
interleaving of the parent's and the child's event sequences respecting
the two semaphores), the child's yield-post precedes the parent's wait
returning; the parent then performs the attempted id-map writes in the
order uid_map, setgroups, gid_map — all before its post — and the child's
wait returns, after which the user-supplied function runs, only after the
parent's post.  When all writes succeed (wu = ws = true) all three write
events occur in exactly that order. -/
theorem uvclone_rendezvous_order (wu ws : Bool) (t : List UvEv)
    (hI : Interleave (parentProg wu ws) childProg t) (hS : SemOk t) :
    idxA t .cPost < idxA t .pWait ∧
    idxA t .pWait < idxA t .wUid ∧
    idxA t .wUid < idxA t .pPost ∧
    (wu = true → idxA t .wUid < idxA t .wSetg ∧ idxA t .wSetg < idxA t .pPost) ∧
    (wu = true → ws = true → idxA t .wSetg < idxA t .wGid ∧ idxA t .wGid < idxA t .pPost) ∧
    idxA t .pPost < idxA t .cResume ∧
    idxA t .cResume < idxA t .cRun := by
  have hperm := interleave_perm hI
  have hndPC : (parentProg wu ws ++ childProg).Nodup := by
    cases wu <;> cases ws <;> decide
  have hnd : t.Nodup := hperm.nodup_iff.2 hndPC
  have hPsub := interleave_sublist_left hI
  have hCsub := interleave_sublist_right hI
  have hPmem : UvEv.pWait ∈ t := hPsub.subset (by cases wu <;> cases ws <;> decide)
  have hRmem : UvEv.cResume ∈ t := hCsub.subset (by decide)
  have o1 : idxA t .cPost < idxA t .pWait :=
    sem_before hPmem (fun n hn hp => (hS n hn).1 hp) (by decide)
  have o2 : idxA t .pPost < idxA t .cResume :=
    sem_before hRmem (fun n hn hp => (hS n hn).2 hp) (by decide)
  have p1 : List.Sublist [UvEv.pWait, UvEv.wUid] (parentProg wu ws) := by
    cases wu <;> cases ws <;> decide
  have p2 : List.Sublist [UvEv.wUid, UvEv.pPost] (parentProg wu ws) := by
    cases wu <;> cases ws <;> decide
  have c1 : List.Sublist [UvEv.cResume, UvEv.cRun] childProg := by decide
  refine ⟨o1, pair_sublist_idxA (p1.trans hPsub) hnd,
    pair_sublist_idxA (p2.trans hPsub) hnd, ?_, ?_, o2,
    pair_sublist_idxA (c1.trans hCsub) hnd⟩
  · intro hwu
    subst hwu
    have p3 : List.Sublist [UvEv.wUid, UvEv.wSetg] (parentProg true ws) := by
      cases ws <;> decide
    have p4 : List.Sublist [UvEv.wSetg, UvEv.pPost] (parentProg true ws) := by
      cases ws <;> decide
    exact ⟨pair_sublist_idxA (p3.trans hPsub) hnd, pair_sublist_idxA (p4.trans hPsub) hnd⟩
  · intro hwu hws
    subst hwu
    subst hws
    have p5 : List.Sublist [UvEv.wSetg, UvEv.wGid] (parentProg true true) := by decide
    have p6 : List.Sublist [UvEv.wGid, UvEv.pPost] (parentProg true true) := by decide
    exact ⟨pair_sublist_idxA (p5.trans hPsub) hnd, pair_sublist_idxA (p6.trans hPsub) hnd⟩

theorem uvclone_rendezvous_order_witness :
    SemOk [UvEv.cPost, UvEv.pWait, UvEv.wUid, UvEv.wSetg, UvEv.wGid,
      UvEv.pPost, UvEv.cResume, UvEv.cRun] ∧
    idxA [UvEv.cPost, UvEv.pWait, UvEv.wUid, UvEv.wSetg, UvEv.wGid,
      UvEv.pPost, UvEv.cResume, UvEv.cRun] UvEv.cPost <
      idxA [UvEv.cPost, UvEv.pWait, UvEv.wUid, UvEv.wSetg, UvEv.wGid,
        UvEv.pPost, UvEv.cResume, UvEv.cRun] UvEv.pWait := by
  have hI : Interleave (parentProg true true) childProg
      [UvEv.cPost, UvEv.pWait, UvEv.wUid, UvEv.wSetg, UvEv.wGid,
        UvEv.pPost, UvEv.cResume, UvEv.cRun] :=
    Interleave.right (Interleave.left (Interleave.left (Interleave.left
      (Interleave.left (Interleave.left (Interleave.right (Interleave.right
        Interleave.nil)))))))
  exact ⟨by decide, (uvclone_rendezvous_order true true _ hI (by decide)).1⟩
